import Mathlib

/-!
Shallow embedding of the text pipeline of src/glogs_wordcloud.py:
payload extraction (get_logs, lines 46-63), text normalization
(clean_text, lines 65-76) and frequency analysis
(analyze_word_frequency, lines 79-99; analyze_phrase_frequency,
lines 101-125).  Strings are handled through their character lists,
and the Python collections.Counter is an association list in
insertion order.
-/

/-- A Python collections.Counter over strings, modelled as an
association list from key to count, in insertion order, keys unique
by construction. -/
abbrev Counter := List (String × Nat)

/-- Counter indexing: the stored count of a key, 0 when absent. -/
def Counter.get : Counter → String → Nat
  | [], _ => 0
  | (a, v) :: rest, q => if a = q then v else Counter.get rest q

/-- One step of counts.update: add one occurrence of a key, bumping an
existing binding in place or appending a fresh binding with count 1. -/
def Counter.incr : Counter → String → Counter
  | [], q => [(q, 1)]
  | (a, v) :: rest, q =>
      if a = q then (a, v + 1) :: rest else (a, v) :: Counter.incr rest q

/-- counts.update(items): add one occurrence per list element, left to
right. -/
def Counter.updateMany (c : Counter) (ws : List String) : Counter :=
  ws.foldl Counter.incr c

/-- The keys of a Counter, in insertion order. -/
def Counter.keys (c : Counter) : List String := c.map Prod.fst

/-- Number of occurrences of a string in a list. -/
def occCount (q : String) : List String → Nat
  | [] => 0
  | w :: ws => (if w = q then 1 else 0) + occCount q ws

/-- The shape of entry.payload as the extraction loop of get_logs
distinguishes it: a plain string, a dict (string keys, values taken as
strings), or any other value.  An other value is carried as its str()
image, where none models a value whose stringification raises, which
is the only failing step the try block can hit in this model. -/
inductive Payload where
  | str (s : String)
  | dict (fields : List (String × String))
  | other (canonical : Option String)

/-- A canonical rendering of a dict, standing for the str() image of a
Python dict used on line 57; its exact format is opaque downstream. -/
def strOfDict (fields : List (String × String)) : String :=
  "\x7b" ++ String.intercalate ", " (fields.map (fun kv => kv.1 ++ ": " ++ kv.2)) ++ "\x7d"

/-- The per-entry body of the extraction loop of get_logs
(lines 48-62): string payloads are used verbatim; dict payloads yield
the message field when present and the str() image of the whole dict
otherwise; any other payload yields its str() image, none when that
stringification raises (the entry is then skipped by the loop). -/
def extract_entry : Payload → Option String
  | Payload.str s => some s
  | Payload.dict fields =>
      match fields.lookup "message" with
      | some v => some v
      | none => some (strOfDict fields)
  | Payload.other canonical => canonical

/-- The extraction loop of get_logs over an already-fetched entry
list: entries whose extraction raises are skipped, order is kept. -/
def get_logs (entries : List Payload) : List String :=
  entries.filterMap extract_entry

/-- A regex word character as used by clean_text, restricted to the
character classes the repository actually feeds it: an alphanumeric
character or an underscore. -/
def isWordChar (c : Char) : Bool := c.isAlphanum || c == '_'

/-- clean_text (lines 65-76): drop every character that is neither a
word character nor whitespace, lowercase the rest, then drop every
digit, so a digit run collapses to the empty string. -/
def clean_text (text : String) : String :=
  let noPunct := String.mk (text.data.filter (fun c => isWordChar c || c.isWhitespace))
  let lowered := String.mk (noPunct.data.map Char.toLower)
  String.mk (lowered.data.filter (fun c => !c.isDigit))

/-- Helper of pySplit: walk the characters, accumulating the current
word reversed, emitting it at each whitespace run boundary. -/
def splitWsAux : List Char → List Char → List String
  | [], acc => if acc.isEmpty then [] else [String.mk acc.reverse]
  | c :: cs, acc =>
      if c.isWhitespace then
        if acc.isEmpty then splitWsAux cs []
        else String.mk acc.reverse :: splitWsAux cs []
      else splitWsAux cs (c :: acc)

/-- Python str.split() with no separator: split on whitespace runs and
produce no empty words. -/
def pySplit (s : String) : List String := splitWsAux s.data []

/-- Lines 95-97 and 118-120: clean the message, split it on
whitespace, and keep only the words that are not stop words and are
longer than 2 characters. -/
def tokenize (stop_words : List String) (message : String) : List String :=
  (pySplit (clean_text message)).filter
    (fun word => decide (word ∉ stop_words) && decide (word.length > 2))

/-- Line 122, zip(*[words[i:] for i in range(n)]): the contiguous
windows of n consecutive words.  zip stops at the shortest slice, so a
word list shorter than n yields no window, and n = 0 is zip of no
iterables, which yields nothing at all.  One step of that zip takes
the heads of the n slices, which form the window starting at index 0,
and leaves their tails, which are exactly the n slices of the tail of
the word list; this recursion is that unrolling. -/
def ngrams (n : Nat) : List String → List (List String)
  | [] => []
  | w :: ws =>
      if n = 0 then []
      else if ws.length + 1 < n then []
      else (w :: ws).take n :: ngrams n ws

/-- Line 123: join each window with a single space into one phrase. -/
def phrasesOf (n : Nat) (stop_words : List String) (message : String) : List String :=
  (ngrams n (tokenize stop_words message)).map (fun phrase => String.intercalate " " phrase)

/-- analyze_word_frequency (lines 79-99), with the stop-word set an
explicit argument standing for the stop_words parameter. -/
def analyze_word_frequency (log_messages : List String) (stop_words : List String) : Counter :=
  log_messages.foldl
    (fun word_counts message => Counter.updateMany word_counts (tokenize stop_words message)) []

/-- analyze_phrase_frequency (lines 101-125). -/
def analyze_phrase_frequency (log_messages : List String) (n : Nat) (stop_words : List String) : Counter :=
  log_messages.foldl
    (fun phrase_counts message => Counter.updateMany phrase_counts (phrasesOf n stop_words message)) []

/-- Step 1 of the normalizer as the spec states it: remove every
character that is not a word character and not whitespace. -/
def specStep1 (s : String) : String :=
  String.mk (s.data.filter (fun c => isWordChar c || c.isWhitespace))

/-- Step 2 of the normalizer as the spec states it: case-fold to
lowercase. -/
def specStep2 (s : String) : String := String.mk (s.data.map Char.toLower)

/-- Step 3 of the normalizer as the spec states it: remove every digit
character. -/
def specStep3 (s : String) : String := String.mk (s.data.filter (fun c => !c.isDigit))

/-- The normalizer as the spec states it: the three steps in order,
then a whitespace split, with no stop-word or length filtering. -/
def specNormalize (s : String) : List String := pySplit (specStep3 (specStep2 (specStep1 s)))

theorem Counter.get_incr (c : Counter) (q k : String) :
    Counter.get (Counter.incr c q) k = Counter.get c k + (if q = k then 1 else 0) := by
  induction c with
  | nil =>
      by_cases hqk : q = k
      · simp [Counter.incr, Counter.get, hqk]
      · simp [Counter.incr, Counter.get, hqk]
  | cons p rest ih =>
      obtain ⟨a, v⟩ := p
      simp only [Counter.incr]
      by_cases haq : a = q
      · rw [if_pos haq]
        by_cases hak : a = k
        · have hqk : q = k := haq.symm.trans hak
          simp [Counter.get, hak, hqk]
        · have hqk : ¬ q = k := fun h => hak (haq.trans h)
          simp [Counter.get, hak, hqk]
      · rw [if_neg haq]
        by_cases hak : a = k
        · have hqk : ¬ q = k := fun h => haq (hak.trans h.symm)
          simp [Counter.get, hak, hqk]
        · simp [Counter.get, hak, ih]

theorem Counter.get_updateMany (ws : List String) (c : Counter) (k : String) :
    Counter.get (Counter.updateMany c ws) k = Counter.get c k + occCount k ws := by
  induction ws generalizing c with
  | nil => simp [Counter.updateMany, occCount]
  | cons w ws ih =>
      have hstep : Counter.updateMany c (w :: ws) = Counter.updateMany (Counter.incr c w) ws := rfl
      rw [hstep, ih, Counter.get_incr]
      by_cases h : w = k
      · simp only [occCount, if_pos h]
        omega
      · simp only [occCount, if_neg h]
        omega

theorem occCount_append (k : String) (l₁ l₂ : List String) :
    occCount k (l₁ ++ l₂) = occCount k l₁ + occCount k l₂ := by
  induction l₁ with
  | nil => simp [occCount]
  | cons w ws ih =>
      rw [List.cons_append]
      simp only [occCount]
      rw [ih]
      omega

theorem occCount_flatten (k : String) (L : List (List String)) :
    occCount k L.flatten = (L.map (occCount k)).sum := by
  induction L with
  | nil => rfl
  | cons l L ih => simp [List.flatten_cons, occCount_append, ih]

theorem Counter.get_foldl (f : String → List String) (msgs : List String) (c : Counter) (k : String) :
    Counter.get (msgs.foldl (fun acc m => Counter.updateMany acc (f m)) c) k
      = Counter.get c k + occCount k ((msgs.map f).flatten) := by
  induction msgs generalizing c with
  | nil => simp [occCount]
  | cons m msgs ih =>
      simp only [List.foldl_cons, List.map_cons, List.flatten_cons]
      rw [ih, Counter.get_updateMany, occCount_append]
      omega

/-- The word-mode count of a word is its number of occurrences among
the filtered tokens of all messages. -/
theorem get_analyze_word (log_messages stop_words : List String) (w : String) :
    Counter.get (analyze_word_frequency log_messages stop_words) w
      = occCount w ((log_messages.map (tokenize stop_words)).flatten) := by
  have h := Counter.get_foldl (tokenize stop_words) log_messages [] w
  simpa [analyze_word_frequency, Counter.get] using h

/-- The phrase-mode count of a phrase is its number of occurrences
among the joined windows of all messages. -/
theorem get_analyze_phrase (log_messages stop_words : List String) (n : Nat) (p : String) :
    Counter.get (analyze_phrase_frequency log_messages n stop_words) p
      = occCount p ((log_messages.map (phrasesOf n stop_words)).flatten) := by
  have h := Counter.get_foldl (phrasesOf n stop_words) log_messages [] p
  simpa [analyze_phrase_frequency, Counter.get] using h

/-- A word survives the filter exactly when it comes from the split of
the cleaned message, is not a stop word, and is longer than 2. -/
theorem tokenize_mem (stop_words : List String) (message : String) (w : String) :
    w ∈ tokenize stop_words message ↔
      (w ∈ pySplit (clean_text message) ∧ w ∉ stop_words ∧ w.length > 2) := by
  simp [tokenize, List.mem_filter, and_assoc]

/-- With a zero window size the zip runs over no iterables and yields
no window at all. -/
theorem ngrams_zero (ws : List String) : ngrams 0 ws = [] := by
  cases ws with
  | nil => rfl
  | cons w ws => simp [ngrams]

/-- A word list shorter than the window size yields no window. -/
theorem ngrams_eq_nil (n : Nat) (ws : List String) (h : ws.length < n) :
    ngrams n ws = [] := by
  cases ws with
  | nil => rfl
  | cons w ws =>
      have h0 : ¬ n = 0 := by
        simp at h
        omega
      have h1 : ws.length + 1 < n := by simpa using h
      simp [ngrams, h0, h1]

/-- The number of windows is the word count minus the window size plus
one, truncated at zero. -/
theorem ngrams_length (n : Nat) (hn : 1 ≤ n) (ws : List String) :
    (ngrams n ws).length = ws.length + 1 - n := by
  induction ws with
  | nil =>
      simp [ngrams]
      omega
  | cons w ws ih =>
      have h0 : ¬ n = 0 := by omega
      by_cases h : ws.length + 1 < n
      · simp only [ngrams, if_neg h0, if_pos h, List.length_nil, List.length_cons]
        omega
      · simp only [ngrams, if_neg h0, if_neg h, List.length_cons, ih]
        omega

/-- The windows are exactly the contiguous slices of length n, in
order of their start index. -/
theorem ngrams_eq_windows (n : Nat) (hn : 1 ≤ n) (ws : List String) :
    ngrams n ws
      = (List.range (ws.length + 1 - n)).map (fun j => (ws.drop j).take n) := by
  induction ws with
  | nil =>
      have h : 0 + 1 - n = 0 := by omega
      simp [ngrams, h]
  | cons w ws ih =>
      have h0 : ¬ n = 0 := by omega
      by_cases h : ws.length + 1 < n
      · have hz : ws.length + 1 + 1 - n = 0 := by omega
        simp [ngrams, h0, h, hz]
      · have hr : ws.length + 1 + 1 - n = (ws.length + 1 - n) + 1 := by omega
        simp only [ngrams, if_neg h0, if_neg h, List.length_cons, hr,
          List.range_succ_eq_map, List.map_cons, List.map_map, List.drop_zero]
        rw [ih]
        refine congrArg₂ List.cons rfl ?_
        apply List.map_congr_left
        intro j hj
        simp [Function.comp, List.drop_succ_cons]

/-- Every window has length n and draws its words from the word
list. -/
theorem ngrams_mem (n : Nat) (ws : List String) (g : List String)
    (hg : g ∈ ngrams n ws) : g.length = n ∧ ∀ w ∈ g, w ∈ ws := by
  induction ws with
  | nil => simp [ngrams] at hg
  | cons w ws ih =>
      by_cases h0 : n = 0
      · rw [h0, ngrams_zero] at hg
        simp at hg
      by_cases h : ws.length + 1 < n
      · simp [ngrams, h0, h] at hg
      · simp only [ngrams, if_neg h0, if_neg h, List.mem_cons] at hg
        rcases hg with hg | hg
        · subst hg
          constructor
          · rw [List.length_take, List.length_cons]
            omega
          · intro x hx
            exact List.take_subset _ _ hx
        · obtain ⟨hlen, hmem⟩ := ih hg
          exact ⟨hlen, fun x hx => List.mem_cons_of_mem _ (hmem x hx)⟩

/-- Joining a one-word window with spaces gives back the word. -/
theorem intercalate_singleton (w : String) : String.intercalate " " [w] = w := rfl

/-- Windows of size one, joined, are the word list itself. -/
theorem ngrams_one_map (ws : List String) :
    (ngrams 1 ws).map (fun g => String.intercalate " " g) = ws := by
  induction ws with
  | nil => rfl
  | cons w ws ih =>
      have h : ¬ (ws.length + 1 < 1) := by omega
      simp only [ngrams, if_neg (by omega : ¬ (1 : Nat) = 0), if_neg h,
        List.take_succ_cons, List.take_zero, List.map_cons, ih,
        intercalate_singleton]

/-- Claim C2: word mode normalizes each message, keeps only words with
length > 2 that are not stop words, and counts each surviving word
once per occurrence across the shared table; on the two example
messages with an empty stop-word set the table is error 2, disk 2,
full 2. -/
theorem word_mode_correct :
    (∀ (stop_words : List String) (message word : String),
        word ∈ tokenize stop_words message ↔
          (word ∈ pySplit (clean_text message) ∧ word ∉ stop_words ∧ word.length > 2)) ∧
    (∀ (log_messages stop_words : List String) (word : String),
        Counter.get (analyze_word_frequency log_messages stop_words) word
          = occCount word ((log_messages.map (tokenize stop_words)).flatten)) ∧
    analyze_word_frequency ["Error: disk FULL 123", "error disk full"] []
      = [("error", 2), ("disk", 2), ("full", 2)] := by
  refine ⟨tokenize_mem, get_analyze_word, by decide⟩

/-- Claim C1: phrase mode filters each normalized message exactly as
word mode does, builds the contiguous windows of n consecutive
filtered words in start order, so exactly length + 1 - n windows
(truncated at zero, and none when the filtered message is shorter than
n), joins each window with a single space, and counts each phrase once
per occurrence in the shared table; every word inside a window passed
the filter, so no stop word or short word appears inside a phrase; on
the two example messages with n = 2 the table is error disk 2, disk
full 2. -/
theorem phrase_mode_correct (log_messages stop_words : List String) (n : Nat) (hn : 1 ≤ n) :
    (∀ message : String, (phrasesOf n stop_words message).length
        = (tokenize stop_words message).length + 1 - n) ∧
    (∀ message : String, ngrams n (tokenize stop_words message)
        = (List.range ((tokenize stop_words message).length + 1 - n)).map
            (fun j => ((tokenize stop_words message).drop j).take n)) ∧
    (∀ (message : String) (g : List String), g ∈ ngrams n (tokenize stop_words message) →
        g.length = n ∧ ∀ w ∈ g, w ∉ stop_words ∧ w.length > 2) ∧
    (∀ message : String, (tokenize stop_words message).length < n →
        phrasesOf n stop_words message = []) ∧
    (∀ phrase : String,
        Counter.get (analyze_phrase_frequency log_messages n stop_words) phrase
          = occCount phrase ((log_messages.map (phrasesOf n stop_words)).flatten)) ∧
    analyze_phrase_frequency ["Error: disk FULL 123", "error disk full"] 2 []
      = [("error disk", 2), ("disk full", 2)] := by
  refine ⟨?_, ?_, ?_, ?_, ?_, by decide⟩
  · intro message
    rw [phrasesOf, List.length_map, ngrams_length n hn]
  · intro message
    exact ngrams_eq_windows n hn _
  · intro message g hg
    obtain ⟨hlen, hmem⟩ := ngrams_mem n _ g hg
    refine ⟨hlen, fun w hw => ?_⟩
    have := (tokenize_mem stop_words message w).mp (hmem w hw)
    exact ⟨this.2.1, this.2.2⟩
  · intro message hshort
    rw [phrasesOf, ngrams_eq_nil n _ hshort, List.map_nil]
  · intro phrase
    exact get_analyze_phrase log_messages stop_words n phrase

/-- Witness for claim C1 at the example input of the spec: two
messages, empty stop-word set, window size 2. -/
theorem phrase_mode_correct_witness :
    1 ≤ 2 ∧
    ((∀ message : String, (phrasesOf 2 [] message).length
        = (tokenize [] message).length + 1 - 2) ∧
    (∀ message : String, ngrams 2 (tokenize [] message)
        = (List.range ((tokenize [] message).length + 1 - 2)).map
            (fun j => ((tokenize [] message).drop j).take 2)) ∧
    (∀ (message : String) (g : List String), g ∈ ngrams 2 (tokenize [] message) →
        g.length = 2 ∧ ∀ w ∈ g, w ∉ ([] : List String) ∧ w.length > 2) ∧
    (∀ message : String, (tokenize [] message).length < 2 →
        phrasesOf 2 [] message = []) ∧
    (∀ phrase : String,
        Counter.get
          (analyze_phrase_frequency ["Error: disk FULL 123", "error disk full"] 2 []) phrase
          = occCount phrase
              ((["Error: disk FULL 123", "error disk full"].map (phrasesOf 2 [])).flatten)) ∧
    analyze_phrase_frequency ["Error: disk FULL 123", "error disk full"] 2 []
      = [("error disk", 2), ("disk full", 2)]) :=
  ⟨by decide, phrase_mode_correct ["Error: disk FULL 123", "error disk full"] [] 2 (by decide)⟩

/-- Claim C3 counterexample: with ngram size 0 the code raises nothing
and the call returns an ordinary value, the empty Counter, instead of
failing before processing; the source has no configuration check at
all. -/
theorem ngram_zero_no_error :
    analyze_phrase_frequency ["error disk full"] 0 [] = [] := by decide

/-- Claim C3 amended: in phrase mode an ngram size of 0 raises no
error; the zip over zero slices yields no window, every message
contributes zero phrases, and the call returns the empty table. -/
theorem ngram_zero_returns_empty (log_messages stop_words : List String) :
    analyze_phrase_frequency log_messages 0 stop_words = [] := by
  have hstep : ∀ (c : Counter) (m : String),
      Counter.updateMany c (phrasesOf 0 stop_words m) = c := by
    intro c m
    rw [phrasesOf, ngrams_zero, List.map_nil]
    rfl
  show List.foldl
      (fun phrase_counts message =>
        Counter.updateMany phrase_counts (phrasesOf 0 stop_words message)) [] log_messages = []
  induction log_messages with
  | nil => rfl
  | cons m ms ih =>
      rw [List.foldl_cons, hstep]
      exact ih

/-- Skipped entries and kept entries partition the batch: the number
of extracted messages plus the number of failing entries is the batch
size. -/
theorem get_logs_length_add_failures (entries : List Payload) :
    (get_logs entries).length
      + entries.countP (fun e => (extract_entry e).isNone) = entries.length := by
  induction entries with
  | nil => rfl
  | cons e es ih =>
      cases h : extract_entry e with
      | none =>
          simp only [get_logs, List.filterMap_cons, h, List.countP_cons, List.length_cons] at *
          simp [h]
          omega
      | some v =>
          simp only [get_logs, List.filterMap_cons, h, List.countP_cons, List.length_cons,
            List.length_cons] at *
          simp [h]
          omega

/-- Claim C5: extraction never aborts the batch; the extraction loop
is a total function that skips failing entries, so the output never
exceeds the input in length, and a batch whose failing entries number
exactly one yields one message fewer than the batch size. -/
theorem get_logs_resilient (entries : List Payload) :
    (get_logs entries).length ≤ entries.length ∧
    (entries.countP (fun e => (extract_entry e).isNone) = 1 →
      (get_logs entries).length = entries.length - 1) := by
  have h := get_logs_length_add_failures entries
  constructor
  · omega
  · intro h1
    omega

/-- Witness for claim C5 on a two-entry batch whose second payload
cannot be stringified. -/
theorem get_logs_resilient_witness :
    (get_logs [Payload.str "abc", Payload.other none]).length ≤ 2 ∧
    (get_logs [Payload.str "abc", Payload.other none]).length = 2 - 1 :=
  ⟨(get_logs_resilient [Payload.str "abc", Payload.other none]).1,
   (get_logs_resilient [Payload.str "abc", Payload.other none]).2 (by decide)⟩

/-- Claim C6: the payload extractor follows exactly the spec case
split: a string payload verbatim, a dict payload through its message
field when present and through the canonical rendering of the whole
dict otherwise, and any other convertible payload through its
canonical rendering. -/
theorem extract_entry_cases :
    (∀ s : String, extract_entry (Payload.str s) = some s) ∧
    (∀ (fields : List (String × String)) (v : String),
        fields.lookup "message" = some v →
          extract_entry (Payload.dict fields) = some v) ∧
    (∀ fields : List (String × String),
        fields.lookup "message" = none →
          extract_entry (Payload.dict fields) = some (strOfDict fields)) ∧
    (∀ s : String, extract_entry (Payload.other (some s)) = some s) := by
  refine ⟨fun _ => rfl, ?_, ?_, fun _ => rfl⟩
  · intro fields v h
    simp [extract_entry, h]
  · intro fields h
    simp [extract_entry, h]

/-- Witness for claim C6, one concrete payload per case. -/
theorem extract_entry_cases_witness :
    extract_entry (Payload.str "abc") = some "abc" ∧
    extract_entry (Payload.dict [("message", "disk full")]) = some "disk full" ∧
    extract_entry (Payload.dict [("severity", "INFO")])
      = some (strOfDict [("severity", "INFO")]) ∧
    extract_entry (Payload.other (some "404")) = some "404" :=
  ⟨extract_entry_cases.1 "abc",
   extract_entry_cases.2.1 [("message", "disk full")] "disk full" (by decide),
   extract_entry_cases.2.2.1 [("severity", "INFO")] (by decide),
   extract_entry_cases.2.2.2 "404"⟩

/-- Occurrence counts over the flattened images of a batch split into
two parts, in any order, add up to those of the whole batch. -/
theorem occCount_flatten_perm (f : String → List String) (msgs a b : List String)
    (h : msgs.Perm (a ++ b)) (k : String) :
    occCount k ((msgs.map f).flatten)
      = occCount k ((a.map f).flatten) + occCount k ((b.map f).flatten) := by
  rw [occCount_flatten, occCount_flatten, occCount_flatten,
    List.map_map, List.map_map, List.map_map]
  rw [(h.map (occCount k ∘ f)).sum_eq]
  rw [List.map_append, List.sum_append]

/-- Claim C8: aggregation is order-independent in both modes: any
two-part split of the batch, analyzed separately, sums key by key to
the analysis of the whole batch. -/
theorem aggregation_order_independent
    (log_messages a b stop_words : List String) (n : Nat)
    (hsplit : log_messages.Perm (a ++ b)) :
    (∀ w : String, Counter.get (analyze_word_frequency log_messages stop_words) w
        = Counter.get (analyze_word_frequency a stop_words) w
          + Counter.get (analyze_word_frequency b stop_words) w) ∧
    (∀ p : String, Counter.get (analyze_phrase_frequency log_messages n stop_words) p
        = Counter.get (analyze_phrase_frequency a n stop_words) p
          + Counter.get (analyze_phrase_frequency b n stop_words) p) := by
  constructor
  · intro w
    rw [get_analyze_word, get_analyze_word, get_analyze_word]
    exact occCount_flatten_perm (tokenize stop_words) log_messages a b hsplit w
  · intro p
    rw [get_analyze_phrase, get_analyze_phrase, get_analyze_phrase]
    exact occCount_flatten_perm (phrasesOf n stop_words) log_messages a b hsplit p

/-- Witness for claim C8: a three-message batch split into a
non-contiguous pair of parts, word and phrase mode with n = 2. -/
theorem aggregation_order_independent_witness :
    (∀ w : String,
        Counter.get (analyze_word_frequency ["aaa bbb", "ccc ddd", "aaa eee"] []) w
        = Counter.get (analyze_word_frequency ["ccc ddd"] []) w
          + Counter.get (analyze_word_frequency ["aaa bbb", "aaa eee"] []) w) ∧
    (∀ p : String,
        Counter.get (analyze_phrase_frequency ["aaa bbb", "ccc ddd", "aaa eee"] 2 []) p
        = Counter.get (analyze_phrase_frequency ["ccc ddd"] 2 []) p
          + Counter.get (analyze_phrase_frequency ["aaa bbb", "aaa eee"] 2 []) p) :=
  aggregation_order_independent ["aaa bbb", "ccc ddd", "aaa eee"]
    ["ccc ddd"] ["aaa bbb", "aaa eee"] [] 2 (by decide)

/-- Claim C4: the normalizer is exactly the ordered composition of the
four spec steps: strip the characters that are neither word characters
nor whitespace, lowercase, strip the digits with digit runs collapsing
to the empty string, then split on whitespace; no stop-word or length
filter is applied here, as the short words in the example show. -/
theorem normalizer_steps :
    (∀ s : String, clean_text s = specStep3 (specStep2 (specStep1 s))) ∧
    (∀ s : String, pySplit (clean_text s) = specNormalize s) ∧
    pySplit (clean_text "ab the x1 12 y") = ["ab", "the", "x", "y"] :=
  ⟨fun _ => rfl, fun _ => rfl, by decide⟩

/-- Claim C7: phrase mode with window size 1 returns the same Counter
as word mode, binding for binding. -/
theorem phrase_mode_one_eq_word_mode (log_messages stop_words : List String) :
    analyze_phrase_frequency log_messages 1 stop_words
      = analyze_word_frequency log_messages stop_words := by
  have hp : ∀ m, phrasesOf 1 stop_words m = tokenize stop_words m := by
    intro m
    rw [phrasesOf, ngrams_one_map]
  simp only [analyze_phrase_frequency, analyze_word_frequency, hp]

/-- cleaning a message every character of which is a word character or
whitespace, with no digit and no uppercase letter, changes nothing. -/
theorem clean_text_fixed (s : String)
    (h : ∀ c ∈ s.data,
        (isWordChar c || c.isWhitespace) = true ∧ c.isDigit = false ∧ c.toLower = c) :
    clean_text s = s := by
  have e : clean_text s
      = String.mk (((s.data.filter (fun c => isWordChar c || c.isWhitespace)).map
            Char.toLower).filter (fun c => !c.isDigit)) := rfl
  have h1 : s.data.filter (fun c => isWordChar c || c.isWhitespace) = s.data := by
    rw [List.filter_eq_self]
    intro c hc
    exact (h c hc).1
  have h2 : s.data.map Char.toLower = s.data := by
    rw [List.map_congr_left (fun c hc => (h c hc).2.2)]
    exact List.map_id s.data
  have h3 : s.data.filter (fun c => !c.isDigit) = s.data := by
    rw [List.filter_eq_self]
    intro c hc
    simp [(h c hc).2.1]
  rw [e, h1, h2, h3]

/-- Claim C9: cleaning is idempotent on already-normalized input: a
message that is lowercase with no punctuation and no digits is left
unchanged by clean_text, so its normalized word sequence is its own
whitespace split. -/
theorem normalizer_idempotent (s : String)
    (h : ∀ c ∈ s.data,
        (isWordChar c || c.isWhitespace) = true ∧ c.isDigit = false ∧ c.toLower = c) :
    clean_text s = s ∧ pySplit (clean_text s) = pySplit s := by
  have hfix := clean_text_fixed s h
  exact ⟨hfix, by rw [hfix]⟩

/-- Witness for claim C9 on an already-normalized message. -/
theorem normalizer_idempotent_witness :
    (∀ c ∈ ("error disk full" : String).data,
        (isWordChar c || c.isWhitespace) = true ∧ c.isDigit = false ∧ c.toLower = c) ∧
    (clean_text "error disk full" = "error disk full" ∧
     pySplit (clean_text "error disk full") = pySplit "error disk full") :=
  ⟨by decide, normalizer_idempotent "error disk full" (by decide)⟩

/-- Adding one occurrence extends the key set by exactly that key. -/
theorem Counter.mem_keys_incr (c : Counter) (q k : String) :
    k ∈ Counter.keys (Counter.incr c q) ↔ (k ∈ Counter.keys c ∨ k = q) := by
  induction c with
  | nil => simp [Counter.incr, Counter.keys]
  | cons p rest ih =>
      obtain ⟨a, v⟩ := p
      simp only [Counter.incr]
      by_cases haq : a = q
      · rw [if_pos haq]
        subst haq
        simp only [Counter.keys, List.map_cons, List.mem_cons]
        tauto
      · rw [if_neg haq]
        simp only [Counter.keys, List.map_cons, List.mem_cons]
        simp only [Counter.keys] at ih
        rw [ih]
        tauto

theorem Counter.mem_keys_updateMany (ws : List String) (c : Counter) (k : String) :
    k ∈ Counter.keys (Counter.updateMany c ws) ↔ (k ∈ Counter.keys c ∨ k ∈ ws) := by
  induction ws generalizing c with
  | nil => simp [Counter.updateMany]
  | cons w ws ih =>
      have hstep : Counter.updateMany c (w :: ws) = Counter.updateMany (Counter.incr c w) ws := rfl
      rw [hstep, ih, Counter.mem_keys_incr]
      simp only [List.mem_cons]
      tauto

theorem Counter.mem_keys_foldl (f : String → List String) (msgs : List String) (c : Counter)
    (k : String) :
    k ∈ Counter.keys (msgs.foldl (fun acc m => Counter.updateMany acc (f m)) c)
      ↔ (k ∈ Counter.keys c ∨ k ∈ (msgs.map f).flatten) := by
  induction msgs generalizing c with
  | nil => simp
  | cons m msgs ih =>
      simp only [List.foldl_cons, List.map_cons, List.flatten_cons, List.mem_append]
      rw [ih, Counter.mem_keys_updateMany]
      tauto

/-- Adding one occurrence keeps every stored count strictly
positive. -/
theorem Counter.pos_incr (c : Counter) (q : String) (h : ∀ p ∈ c, 1 ≤ p.2) :
    ∀ p ∈ Counter.incr c q, 1 ≤ p.2 := by
  induction c with
  | nil =>
      intro p hp
      simp only [Counter.incr, List.mem_singleton] at hp
      rw [hp]
  | cons a rest ih =>
      obtain ⟨b, v⟩ := a
      intro p hp
      simp only [Counter.incr] at hp
      by_cases hbq : b = q
      · rw [if_pos hbq] at hp
        rcases List.mem_cons.mp hp with h1 | h1
        · rw [h1]
          simp
        · exact h p (List.mem_cons_of_mem _ h1)
      · rw [if_neg hbq] at hp
        rcases List.mem_cons.mp hp with h1 | h1
        · rw [h1]
          exact h (b, v) (List.mem_cons_self _ _)
        · exact ih (fun r hr => h r (List.mem_cons_of_mem _ hr)) p h1

theorem Counter.pos_updateMany (ws : List String) (c : Counter) (h : ∀ p ∈ c, 1 ≤ p.2) :
    ∀ p ∈ Counter.updateMany c ws, 1 ≤ p.2 := by
  induction ws generalizing c with
  | nil => exact h
  | cons w ws ih => exact ih (Counter.incr c w) (Counter.pos_incr c w h)

theorem Counter.pos_foldl (f : String → List String) (msgs : List String) (c : Counter)
    (h : ∀ p ∈ c, 1 ≤ p.2) :
    ∀ p ∈ msgs.foldl (fun acc m => Counter.updateMany acc (f m)) c, 1 ≤ p.2 := by
  induction msgs generalizing c with
  | nil => exact h
  | cons m msgs ih => exact ih (Counter.updateMany c (f m)) (Counter.pos_updateMany (f m) c h)

/-- Claim C10: every binding of a returned table carries a count of at
least 1, and the key set is exactly the set of surviving tokens,
respectively phrases, that occur in some message. -/
theorem counts_strictly_positive (log_messages stop_words : List String) (n : Nat)
    (hn : 1 ≤ n) :
    (∀ p ∈ analyze_word_frequency log_messages stop_words, 1 ≤ p.2) ∧
    (∀ p ∈ analyze_phrase_frequency log_messages n stop_words, 1 ≤ p.2) ∧
    (∀ k : String, k ∈ Counter.keys (analyze_word_frequency log_messages stop_words)
        ↔ k ∈ (log_messages.map (tokenize stop_words)).flatten) ∧
    (∀ k : String, k ∈ Counter.keys (analyze_phrase_frequency log_messages n stop_words)
        ↔ k ∈ (log_messages.map (phrasesOf n stop_words)).flatten) := by
  refine ⟨?_, ?_, ?_, ?_⟩
  · exact Counter.pos_foldl (tokenize stop_words) log_messages [] (by simp)
  · exact Counter.pos_foldl (phrasesOf n stop_words) log_messages [] (by simp)
  · intro k
    have h := Counter.mem_keys_foldl (tokenize stop_words) log_messages [] k
    simpa [analyze_word_frequency, Counter.keys] using h
  · intro k
    have h := Counter.mem_keys_foldl (phrasesOf n stop_words) log_messages [] k
    simpa [analyze_phrase_frequency, Counter.keys] using h

/-- Witness for claim C10 on a one-message batch with a repeated word
and window size 2. -/
theorem counts_strictly_positive_witness :
    1 ≤ 2 ∧
    ((∀ p ∈ analyze_word_frequency ["aaa bbb aaa"] [], 1 ≤ p.2) ∧
     (∀ p ∈ analyze_phrase_frequency ["aaa bbb aaa"] 2 [], 1 ≤ p.2) ∧
     (∀ k : String, k ∈ Counter.keys (analyze_word_frequency ["aaa bbb aaa"] [])
         ↔ k ∈ ((["aaa bbb aaa"].map (tokenize [])).flatten)) ∧
     (∀ k : String, k ∈ Counter.keys (analyze_phrase_frequency ["aaa bbb aaa"] 2 [])
         ↔ k ∈ ((["aaa bbb aaa"].map (phrasesOf 2 [])).flatten))) :=
  ⟨by decide, counts_strictly_positive ["aaa bbb aaa"] [] 2 (by decide)⟩
